import Mathlib

/-!
Verification development for the video-captioning core of the repository
(`routes/v1/video/caption_video.py`).  The Python functions
`process_transcription` and `find_font_file` are shallowly embedded below:
timestamps (Python floats) become rationals, the filesystem seen by the font
resolver becomes an explicit `Option (List String)` parameter (`none` when the
font directory is absent, `some files` giving the file names it contains), and
the per-segment video clips produced by the loop become an explicit `Segment`
list.  Fallible code returns `Except`.
-/

namespace CaptionVideo

/-- Python substring check on character lists: `startsWithChars needle hay`
is true when `needle` is an initial run of `hay`. -/
def startsWithChars : List Char → List Char → Bool
  | [], _ => true
  | _ :: _, [] => false
  | a :: as, b :: bs => a = b && startsWithChars as bs

/-- `containsChars needle hay` is Python's `needle in hay` on strings, viewed
as character lists: `needle` occurs as a contiguous run of `hay`
(the empty needle always occurs). -/
def containsChars : List Char → List Char → Bool
  | needle, [] => needle.isEmpty
  | needle, c :: rest => startsWithChars needle (c :: rest) || containsChars needle rest

/-- Case-sensitive Python `needle in hay` on strings. -/
def pyIn (needle hay : String) : Bool :=
  containsChars needle.data hay.data

/-- Case-insensitive containment, `find.lower() in word.lower()`
(caption_video.py line 208); `str.lower()` maps each character to lower
case. -/
def containsCI (hay needle : String) : Bool :=
  containsChars (needle.data.map Char.toLower) (hay.data.map Char.toLower)

/-- One word-level transcript entry (`{word, start, end}`).  The Python float
timestamps are embedded as rationals. -/
structure WordEntry where
  word : String
  start : Rat
  «end» : Rat
deriving DecidableEq, Repr

/-- One replacement rule `{find, replace}` from the request's `replace` array. -/
structure ReplacementRule where
  find : String
  replace : String
deriving DecidableEq, Repr

/-- The recognized `settings` options (caption_video.py lines 23-47); each is
optional in the request, `none` meaning absent.  `max_words_per_line` is
embedded as `Nat`: the reference loop does not terminate for non-positive
values, so only positive values are meaningful. -/
structure CaptionSettings where
  line_color : Option String := none
  word_color : Option String := none
  outline_color : Option String := none
  all_caps : Option Bool := none
  max_words_per_line : Option Nat := none
  position : Option String := none
  alignment : Option String := none
  font_family : Option String := none
  font_size : Option Int := none
  outline_width : Option Int := none
deriving DecidableEq, Repr

/-- Python dict insertion `d[k] = v`: overwrite the value at an existing key
in place, otherwise append the binding (dicts preserve insertion order). -/
def dictInsert (d : List (String × String)) (k v : String) : List (String × String) :=
  if d.any (fun p => p.1 = k) then
    d.map (fun p => if p.1 = k then (p.1, v) else p)
  else
    d ++ [(k, v)]

/-- `replacements = {item['find']: item['replace'] for item in replace_words}`
(caption_video.py line 165): the rule list collapsed into an
insertion-ordered dict keyed by the exact `find` string. -/
def buildReplacements (rules : List ReplacementRule) : List (String × String) :=
  rules.foldl (fun d r => dictInsert d r.find r.replace) []

/-- The word-replacement pass (caption_video.py lines 207-209): for each dict
entry in order, if `find` occurs case-insensitively in the current word, the
whole word becomes `replace`. -/
def applyReplacements (d : List (String × String)) (w : String) : String :=
  d.foldl (fun cur p => if containsCI cur p.1 then p.2 else cur) w

/-- The spec's `normalize(word, rules, all_caps)`: the replacement pass over
the dict built from `rules`, then the optional upper-casing
(caption_video.py lines 203-218 for a single word). -/
def normalize (w : String) (rules : List ReplacementRule) (allCaps : Bool) : String :=
  let t := applyReplacements (buildReplacements rules) w
  if allCaps then t.toUpper else t

/-- Sequence-order rule application as the spec's §4.1 words describe it
(refinement reference only): each rule of the original list is tried in list
order, with no dict collapse. -/
def applyRulesSeq (rules : List ReplacementRule) (w : String) : String :=
  rules.foldl (fun cur r => if containsCI cur r.find then r.replace else cur) w

/-- `display_text` accumulation for one batch (caption_video.py lines 202-218):
replaced words joined by single spaces (no space after an empty accumulator),
upper-cased at the end when `all_caps` is set. -/
def displayText (repl : List (String × String)) (allCaps : Bool)
    (batch : List WordEntry) : String :=
  let text := batch.foldl (fun acc wd =>
    let dw := applyReplacements repl wd.word
    if acc = "" then acc ++ dw else acc ++ " " ++ dw) ""
  if allCaps then text.toUpper else text

/-- The 9-zone position token resolution (caption_video.py lines 227-260),
returning `(vertical_position, horizontal_position)`; substring tests,
`bottom` before `top` before `middle`, unrecognized tokens map to
`(center, center)`. -/
def resolveAnchor (position : String) : String × String :=
  if pyIn "bottom" position then
    if pyIn "left" position then ("bottom", "left")
    else if pyIn "right" position then ("bottom", "right")
    else ("bottom", "center")
  else if pyIn "top" position then
    if pyIn "left" position then ("top", "left")
    else if pyIn "right" position then ("top", "right")
    else ("top", "center")
  else if pyIn "middle" position then
    if pyIn "left" position then ("center", "left")
    else if pyIn "right" position then ("center", "right")
    else ("center", "center")
  else ("center", "center")

/-- Python suffix test `name.endswith(suffix)`, used to model which file
names the `*.ttf` / `*.TTF` globs match. -/
def pyEndsWith (s suffix : String) : Bool :=
  startsWithChars suffix.data.reverse s.data.reverse

/-- Python `font_name.lower().replace(" ", "").replace("-", "")`
(caption_video.py line 335). -/
def normalizeFontName (s : String) : String :=
  String.mk ((s.data.map Char.toLower).filter (fun c => c ≠ ' ' ∧ c ≠ '-'))

/-- Python `str.split()` with no argument: split on whitespace runs,
discarding empty pieces. -/
def pySplit (s : String) : List String :=
  (s.split (fun c => c.isWhitespace)).filter (fun t => t ≠ "")

/-- The glob candidates `glob("*.ttf") + glob("*.TTF")`
(caption_video.py line 338) over the file names of the font directory. -/
def fontCandidates (files : List String) : List String :=
  files.filter (fun f => pyEndsWith f ".ttf") ++ files.filter (fun f => pyEndsWith f ".TTF")

/-- `os.path.splitext(basename)[0]` for the candidates: every candidate ends
with a 4-character `.ttf`/`.TTF` extension, which splitext strips. -/
def fontStem (f : String) : String :=
  f.dropRight 4

/-- `find_font_file` (caption_video.py lines 316-359).  The filesystem is a
parameter: `fontDir = none` when the `fonts` directory does not exist,
`some files` giving the names of the files it holds.  Pass 1 matches the
normalized stem against the normalized requested name; pass 2 matches the
lower-cased stem against the whitespace tokens of the normalized name; both
fall through to the fixed default `fonts/Arial.ttf`. -/
def find_font_file (fontName : String) (fontDir : Option (List String)) : String :=
  match fontDir with
  | none => "fonts/Arial.ttf"
  | some files =>
    let fontNameLower := normalizeFontName fontName
    let cands := fontCandidates files
    match cands.find? (fun f => pyIn fontNameLower (normalizeFontName (fontStem f))) with
    | some f => "fonts/" ++ f
    | none =>
      match cands.find? (fun f =>
          (pySplit fontNameLower).any (fun part => pyIn part (fontStem f).toLower)) with
      | some f => "fonts/" ++ f
      | none => "fonts/Arial.ttf"

/-- The style arguments of the `TextClip` built for every caption
(caption_video.py lines 262-275), minus the per-segment `duration` (which is
the segment's `end - start`) and the frame `size`. -/
structure CaptionStyle where
  font_path : String
  font_size : Int
  color : String
  stroke_color : String
  stroke_width : Int
  vertical_align : String
  horizontal_align : String
  text_align : String
deriving DecidableEq, Repr

/-- The style every caption of one run carries, resolved from `settings`
exactly as caption_video.py lines 223-275 do. -/
def captionStyle (st : CaptionSettings) (fontDir : Option (List String)) : CaptionStyle :=
  let anchors := resolveAnchor (st.position.getD "middle_center")
  { font_path := find_font_file (st.font_family.getD "Arial") fontDir
    font_size := st.font_size.getD 24
    color := st.word_color.getD "white"
    stroke_color := st.line_color.getD "black"
    stroke_width := st.outline_width.getD 2
    vertical_align := anchors.1
    horizontal_align := anchors.2
    text_align := st.alignment.getD "center" }

/-- One clip appended to `clips` by the loop: a bare `subclipped` span
(`gap`) or a text-overlaid span (`caption`). -/
inductive Segment where
  | gap (start «end» : Rat)
  | caption (start «end» : Rat) (text : String) (style : CaptionStyle)
deriving DecidableEq, Repr

/-- `batch[-1]['end']` of the nonempty batch `w :: ws`. -/
def lastEnd : WordEntry → List WordEntry → Rat
  | w, [] => w.«end»
  | _, v :: vs => lastEnd v vs

/-- Start of a (nonempty) batch, `batch[0]['start']`. -/
def batchStart : List WordEntry → Rat
  | [] => 0
  | w :: _ => w.start

/-- End of a (nonempty) batch, `batch[-1]['end']`. -/
def batchEnd : List WordEntry → Rat
  | [] => 0
  | w :: ws => lastEnd w ws

/-- Fuel-driven runner for the positional batching of the while loop; the
fuel only bounds the number of iterations (each iteration consumes at least
one entry, so the list length is always enough fuel). -/
def toBatchesGo (m : Nat) : Nat → List WordEntry → List (List WordEntry)
  | _, [] => []
  | 0, _ :: _ => []
  | fuel + 1, w :: ws => (w :: ws.take (m - 1)) :: toBatchesGo m fuel (ws.drop (m - 1))

/-- The positional batching of the while loop (caption_video.py lines 175-178
and 282): `batch = transcribe[i:i+min(m, len-i)]`, `i += batch_size`, written
as the list of consecutive slices of width `m`. -/
def toBatches (m : Nat) (l : List WordEntry) : List (List WordEntry) :=
  toBatchesGo m l.length l

/-- The body of the while loop over the batches (caption_video.py
lines 180-199 and 220-282), threading `previous_end_time` and returning the
emitted clip list together with the final cursor value.  An invalid batch is
skipped with the cursor unchanged; a valid batch emits an optional gap clip
and its caption clip and moves the cursor to the batch end. -/
def runBatches (dur : Rat) (repl : List (String × String)) (allCaps : Bool)
    (style : CaptionStyle) : List (List WordEntry) → Rat → List Segment × Rat
  | [], prev => ([], prev)
  | [] :: bs, prev => runBatches dur repl allCaps style bs prev
  | (w :: ws) :: bs, prev =>
    let startTime := w.start
    let endTime := lastEnd w ws
    if endTime < startTime ∨ startTime < 0 ∨ dur < endTime then
      runBatches dur repl allCaps style bs prev
    else
      let tail := runBatches dur repl allCaps style bs endTime
      ((if 0 < prev ∧ prev < startTime ∧ startTime ≠ 0 then
          [Segment.gap prev startTime] else [])
        ++ Segment.caption startTime endTime (displayText repl allCaps (w :: ws)) style
          :: tail.1,
       tail.2)

/-- The full clip list `process_transcription` builds for one run:
the loop's clips followed by the trailing remainder clip when the cursor has
not reached the video duration (caption_video.py lines 284-288). -/
def segmentAll (transcribe : List WordEntry) (replaceWords : List ReplacementRule)
    (st : CaptionSettings) (dur : Rat) (fontDir : Option (List String)) : List Segment :=
  let repl := buildReplacements replaceWords
  let m := st.max_words_per_line.getD 1
  let allCaps := st.all_caps.getD false
  let style := captionStyle st fontDir
  let r := runBatches dur repl allCaps style (toBatches m transcribe) 0
  r.1 ++ (if r.2 < dur then [Segment.gap r.2 dur] else [])

/-- `process_transcription` as seen at the segment level
(caption_video.py lines 290-314): if the clip list is empty the run raises
`"No valid word segments found in transcription"`, otherwise it succeeds with
the ordered clip list it will concatenate. -/
def processTranscription (transcribe : List WordEntry)
    (replaceWords : List ReplacementRule) (st : CaptionSettings) (dur : Rat)
    (fontDir : Option (List String)) : Except String (List Segment) :=
  let segs := segmentAll transcribe replaceWords st dur fontDir
  if segs.isEmpty then
    Except.error "No valid word segments found in transcription"
  else
    Except.ok segs

/-- Start of an emitted segment's span. -/
def spanStart : Segment → Rat
  | .gap s _ => s
  | .caption s _ _ _ => s

/-- End of an emitted segment's span. -/
def spanEnd : Segment → Rat
  | .gap _ e => e
  | .caption _ e _ _ => e

/-- `true` on gap segments. -/
def isGap : Segment → Bool
  | .gap _ _ => true
  | .caption _ _ _ _ => false

/-- The `previous_end_time` cursor value the loop holds when it reaches the
trailing-remainder check (caption_video.py line 285). -/
def finalCursor (transcribe : List WordEntry) (replaceWords : List ReplacementRule)
    (st : CaptionSettings) (dur : Rat) (fontDir : Option (List String)) : Rat :=
  (runBatches dur (buildReplacements replaceWords) (st.all_caps.getD false)
    (captionStyle st fontDir) (toBatches (st.max_words_per_line.getD 1) transcribe) 0).2

/-- Word entries are chain-ordered: each entry ends no later than the next
entry starts. -/
def orderedB : List WordEntry → Bool
  | [] => true
  | [_] => true
  | a :: b :: rest => decide (a.«end» ≤ b.start) && orderedB (b :: rest)

/-- Segment list is time-ordered and non-overlapping, every span is
non-degenerate-or-forward (`start ≤ end`), and the first span starts no
earlier than `lo`. -/
def segsFromB (lo : Rat) : List Segment → Bool
  | [] => true
  | s :: rest =>
    decide (lo ≤ spanStart s) && decide (spanStart s ≤ spanEnd s)
      && segsFromB (spanEnd s) rest

/-- Like `segsFromB lo`, and in addition the final reached bound is at
most `hi`. -/
def segsBetweenB (lo hi : Rat) : List Segment → Bool
  | [] => decide (lo ≤ hi)
  | s :: rest =>
    decide (lo ≤ spanStart s) && decide (spanStart s ≤ spanEnd s)
      && segsBetweenB (spanEnd s) hi rest

/-- Segment list tiles the interval `[lo, hi]` exactly: consecutive spans
abut with no hole and no overlap, the first starts at `lo` and the last ends
at `hi`. -/
def tilesB (lo hi : Rat) : List Segment → Bool
  | [] => decide (lo = hi)
  | s :: rest =>
    decide (spanStart s = lo) && decide (spanStart s ≤ spanEnd s)
      && tilesB (spanEnd s) hi rest

/-- Batch list is chain-ordered: each batch spans forward and ends no later
than the next batch starts. -/
def batchChainB : List (List WordEntry) → Bool
  | [] => true
  | b :: bs =>
    decide (batchStart b ≤ batchEnd b)
      && (match bs with
          | [] => true
          | b' :: _ => decide (batchEnd b ≤ batchStart b'))
      && batchChainB bs

/-- Batch list is nonempty-batched, chain-ordered from `lo`, and every batch
passes the validity gate strictly (`0 ≤ start ≤ end ≤ dur`, `0 < end`). -/
def tiledBatchesFromB (dur : Rat) : Rat → List (List WordEntry) → Bool
  | _, [] => true
  | lo, b :: bs =>
    !b.isEmpty && decide (lo ≤ batchStart b) && decide (0 ≤ batchStart b)
      && decide (batchStart b ≤ batchEnd b) && decide (0 < batchEnd b)
      && decide (batchEnd b ≤ dur) && tiledBatchesFromB dur (batchEnd b) bs

/-- The accepted-batch cursor never sits strictly inside the upcoming batch:
either it is still at (or below) zero, or it is at most the next batch's
start. -/
def leadOK (prev : Rat) : List (List WordEntry) → Prop
  | [] => True
  | b :: _ => prev ≤ 0 ∨ prev ≤ batchStart b

/-- The validity gate of caption_video.py line 187, at batch level (an empty
batch never arises in the loop and counts as discarded). -/
def batchInvalidB (dur : Rat) : List WordEntry → Bool
  | [] => true
  | w :: ws => decide (lastEnd w ws < w.start ∨ w.start < 0 ∨ dur < lastEnd w ws)

theorem lastEnd_mem (l : List WordEntry) (w : WordEntry) :
    ∃ u, u ∈ w :: l ∧ lastEnd w l = u.«end» := by
  induction l generalizing w with
  | nil => exact ⟨w, List.mem_cons_self w [], rfl⟩
  | cons v vs ih =>
    obtain ⟨u, hu, he⟩ := ih v
    exact ⟨u, List.mem_cons_of_mem w hu, he⟩

theorem orderedB_tail {w : WordEntry} {ws : List WordEntry}
    (h : orderedB (w :: ws) = true) : orderedB ws = true := by
  cases ws with
  | nil => rfl
  | cons v vs =>
    simp only [orderedB, Bool.and_eq_true] at h
    exact h.2

theorem orderedB_head {w v : WordEntry} {vs : List WordEntry}
    (h : orderedB (w :: v :: vs) = true) : w.«end» ≤ v.start := by
  simp only [orderedB, Bool.and_eq_true, decide_eq_true_eq] at h
  exact h.1

theorem orderedB_drop (k : Nat) (l : List WordEntry) (h : orderedB l = true) :
    orderedB (l.drop k) = true := by
  induction k generalizing l with
  | zero => simpa using h
  | succ k ih =>
    cases l with
    | nil => rfl
    | cons w ws => exact ih ws (orderedB_tail h)

theorem orderedB_take (k : Nat) (ws : List WordEntry) (w : WordEntry)
    (h : orderedB (w :: ws) = true) : orderedB (w :: ws.take k) = true := by
  induction ws generalizing w k with
  | nil => simp [orderedB]
  | cons v vs ih =>
    cases k with
    | zero => simp [orderedB]
    | succ k =>
      simp only [List.take_succ_cons, orderedB, Bool.and_eq_true, decide_eq_true_eq]
      exact ⟨orderedB_head h, ih k v (orderedB_tail h)⟩

theorem ordered_start_le_lastEnd (l : List WordEntry) (w : WordEntry)
    (hv : ∀ u ∈ w :: l, u.start ≤ u.«end») (ho : orderedB (w :: l) = true) :
    w.start ≤ lastEnd w l := by
  induction l generalizing w with
  | nil => exact hv w (List.mem_cons_self w [])
  | cons v vs ih =>
    have h1 : w.start ≤ w.«end» := hv w (List.mem_cons_self _ _)
    have h2 : w.«end» ≤ v.start := orderedB_head ho
    have h3 : v.start ≤ lastEnd v vs :=
      ih v (fun u hu => hv u (List.mem_cons_of_mem _ hu)) (orderedB_tail ho)
    show w.start ≤ lastEnd v vs
    linarith

theorem crossB (ws : List WordEntry) : ∀ (w : WordEntry) (k : Nat),
    orderedB (w :: ws) = true →
    ∀ v, (ws.drop k).head? = some v → lastEnd w (ws.take k) ≤ v.start := by
  induction ws with
  | nil =>
    intro w k _ v hv
    simp at hv
  | cons u us ih =>
    intro w k ho v hv
    cases k with
    | zero =>
      simp only [List.drop_zero, List.head?_cons, Option.some.injEq] at hv
      subst hv
      exact orderedB_head ho
    | succ k =>
      simp only [List.take_succ_cons, List.drop_succ_cons] at *
      exact ih u k (orderedB_tail ho) v hv

theorem segsFromB_cons (lo : Rat) (s : Segment) (rest : List Segment) :
    segsFromB lo (s :: rest) = true ↔
      lo ≤ spanStart s ∧ spanStart s ≤ spanEnd s ∧ segsFromB (spanEnd s) rest = true := by
  simp [segsFromB, and_assoc]

theorem segsBetweenB_cons (lo hi : Rat) (s : Segment) (rest : List Segment) :
    segsBetweenB lo hi (s :: rest) = true ↔
      lo ≤ spanStart s ∧ spanStart s ≤ spanEnd s
        ∧ segsBetweenB (spanEnd s) hi rest = true := by
  simp [segsBetweenB, and_assoc]

theorem tilesB_cons (lo hi : Rat) (s : Segment) (rest : List Segment) :
    tilesB lo hi (s :: rest) = true ↔
      spanStart s = lo ∧ spanStart s ≤ spanEnd s ∧ tilesB (spanEnd s) hi rest = true := by
  simp [tilesB, and_assoc]

theorem batchChainB_cons (b : List WordEntry) (bs : List (List WordEntry)) :
    batchChainB (b :: bs) = true ↔
      batchStart b ≤ batchEnd b
        ∧ (∀ b', bs.head? = some b' → batchEnd b ≤ batchStart b')
        ∧ batchChainB bs = true := by
  cases bs with
  | nil => simp [batchChainB]
  | cons b' bs' => simp [batchChainB, and_assoc]

theorem tiledBatchesFromB_cons (dur lo : Rat) (b : List WordEntry)
    (bs : List (List WordEntry)) :
    tiledBatchesFromB dur lo (b :: bs) = true ↔
      b ≠ [] ∧ lo ≤ batchStart b ∧ 0 ≤ batchStart b ∧ batchStart b ≤ batchEnd b
        ∧ 0 < batchEnd b ∧ batchEnd b ≤ dur
        ∧ tiledBatchesFromB dur (batchEnd b) bs = true := by
  simp [tiledBatchesFromB, and_assoc, List.isEmpty_iff]

theorem toBatchesGo_congr (m : Nat) : ∀ (f₁ f₂ : Nat) (l : List WordEntry),
    l.length ≤ f₁ → l.length ≤ f₂ → toBatchesGo m f₁ l = toBatchesGo m f₂ l := by
  intro f₁
  induction f₁ with
  | zero =>
    intro f₂ l h₁ _
    have h0 : l = [] := List.length_eq_zero.mp (Nat.le_zero.mp h₁)
    subst h0
    cases f₂ <;> rfl
  | succ f₁ ih =>
    intro f₂ l h₁ h₂
    cases l with
    | nil => cases f₂ <;> rfl
    | cons w ws =>
      cases f₂ with
      | zero => simp at h₂
      | succ f₂ =>
        simp only [toBatchesGo]
        congr 1
        apply ih
        · rw [List.length_drop]
          simp only [List.length_cons, Nat.succ_le_succ_iff] at h₁
          omega
        · rw [List.length_drop]
          simp only [List.length_cons, Nat.succ_le_succ_iff] at h₂
          omega

theorem toBatches_nil (m : Nat) : toBatches m [] = [] := rfl

theorem toBatches_cons (m : Nat) (w : WordEntry) (ws : List WordEntry) :
    toBatches m (w :: ws) = (w :: ws.take (m - 1)) :: toBatches m (ws.drop (m - 1)) := by
  show toBatchesGo m (w :: ws).length (w :: ws) = _
  simp only [List.length_cons, toBatchesGo]
  congr 1
  apply toBatchesGo_congr
  · rw [List.length_drop]
    omega
  · exact le_rfl

theorem mem_cons_take {u w : WordEntry} {ws : List WordEntry} {k : Nat}
    (hu : u ∈ w :: ws.take k) : u ∈ w :: ws := by
  rcases List.mem_cons.mp hu with h | h
  · exact h ▸ List.mem_cons_self _ _
  · exact List.mem_cons_of_mem _ (List.take_subset _ _ h)

theorem toBatches_chain_aux (m : Nat) :
    ∀ (n : Nat) (words : List WordEntry), words.length ≤ n →
    (∀ u ∈ words, u.start ≤ u.«end») → orderedB words = true →
    batchChainB (toBatches m words) = true := by
  intro n
  induction n with
  | zero =>
    intro words hlen _ _
    have h0 : words = [] := List.length_eq_zero.mp (Nat.le_zero.mp hlen)
    subst h0
    simp [toBatches_nil, batchChainB]
  | succ n ih =>
    intro words hlen hv ho
    cases words with
    | nil => simp [toBatches_nil, batchChainB]
    | cons w ws =>
      rw [toBatches_cons]
      refine (batchChainB_cons _ _).mpr ⟨?_, ?_, ?_⟩
      · show w.start ≤ lastEnd w (ws.take (m - 1))
        exact ordered_start_le_lastEnd _ w (fun u hu => hv u (mem_cons_take hu))
          (orderedB_take _ _ _ ho)
      · intro b' hb'
        cases hd : ws.drop (m - 1) with
        | nil => rw [hd, toBatches_nil] at hb'; simp at hb'
        | cons v vs =>
          rw [hd, toBatches_cons] at hb'
          simp only [List.head?_cons, Option.some.injEq] at hb'
          subst hb'
          show lastEnd w (ws.take (m - 1)) ≤ v.start
          exact crossB ws w (m - 1) ho v (by rw [hd]; rfl)
      · apply ih
        · rw [List.length_drop]
          simp only [List.length_cons, Nat.succ_le_succ_iff] at hlen
          omega
        · exact fun u hu => hv u (List.mem_cons_of_mem _ (List.drop_subset _ _ hu))
        · exact orderedB_drop _ _ (orderedB_tail ho)

theorem toBatches_chain (m : Nat) (words : List WordEntry)
    (hv : ∀ u ∈ words, u.start ≤ u.«end») (ho : orderedB words = true) :
    batchChainB (toBatches m words) = true :=
  toBatches_chain_aux m words.length words le_rfl hv ho

theorem toBatches_tiled_aux (m : Nat) (dur : Rat) :
    ∀ (n : Nat) (words : List WordEntry) (lo : Rat), words.length ≤ n →
    (∀ u ∈ words, 0 ≤ u.start ∧ u.start < u.«end» ∧ u.«end» ≤ dur) →
    orderedB words = true →
    (∀ u, words.head? = some u → lo ≤ u.start) →
    tiledBatchesFromB dur lo (toBatches m words) = true := by
  intro n
  induction n with
  | zero =>
    intro words lo hlen _ _ _
    have h0 : words = [] := List.length_eq_zero.mp (Nat.le_zero.mp hlen)
    subst h0
    simp [toBatches_nil, tiledBatchesFromB]
  | succ n ih =>
    intro words lo hlen hv ho hlo
    cases words with
    | nil => simp [toBatches_nil, tiledBatchesFromB]
    | cons w ws =>
      rw [toBatches_cons]
      obtain ⟨u, humem, hulast⟩ := lastEnd_mem (ws.take (m - 1)) w
      have hu' := hv u (mem_cons_take humem)
      refine (tiledBatchesFromB_cons _ _ _ _).mpr
        ⟨List.cons_ne_nil _ _, hlo w rfl, (hv w (List.mem_cons_self _ _)).1, ?_, ?_, ?_, ?_⟩
      · show w.start ≤ lastEnd w (ws.take (m - 1))
        exact ordered_start_le_lastEnd _ w
          (fun u hu => le_of_lt (hv u (mem_cons_take hu)).2.1) (orderedB_take _ _ _ ho)
      · show 0 < lastEnd w (ws.take (m - 1))
        rw [hulast]
        exact lt_of_le_of_lt hu'.1 hu'.2.1
      · show lastEnd w (ws.take (m - 1)) ≤ dur
        rw [hulast]
        exact hu'.2.2
      · apply ih
        · rw [List.length_drop]
          simp only [List.length_cons, Nat.succ_le_succ_iff] at hlen
          omega
        · exact fun u hu => hv u (List.mem_cons_of_mem _ (List.drop_subset _ _ hu))
        · exact orderedB_drop _ _ (orderedB_tail ho)
        · intro v hv'
          show lastEnd w (ws.take (m - 1)) ≤ v.start
          exact crossB ws w (m - 1) ho v hv'

theorem toBatches_tiled (m : Nat) (dur : Rat) (words : List WordEntry) (lo : Rat)
    (hv : ∀ u ∈ words, 0 ≤ u.start ∧ u.start < u.«end» ∧ u.«end» ≤ dur)
    (ho : orderedB words = true)
    (hlo : ∀ u, words.head? = some u → lo ≤ u.start) :
    tiledBatchesFromB dur lo (toBatches m words) = true :=
  toBatches_tiled_aux m dur words.length words lo le_rfl hv ho hlo

section RunBatchesLemmas

variable (dur : Rat) (repl : List (String × String)) (ac : Bool) (sty : CaptionStyle)

theorem runBatches_nil (prev : Rat) :
    runBatches dur repl ac sty [] prev = ([], prev) := rfl

theorem runBatches_emptyBatch (bs : List (List WordEntry)) (prev : Rat) :
    runBatches dur repl ac sty ([] :: bs) prev = runBatches dur repl ac sty bs prev := rfl

theorem runBatches_invalid (w : WordEntry) (ws : List WordEntry)
    (bs : List (List WordEntry)) (prev : Rat)
    (h : lastEnd w ws < w.start ∨ w.start < 0 ∨ dur < lastEnd w ws) :
    runBatches dur repl ac sty ((w :: ws) :: bs) prev
      = runBatches dur repl ac sty bs prev := by
  simp only [runBatches]
  rw [if_pos h]

theorem runBatches_valid (w : WordEntry) (ws : List WordEntry)
    (bs : List (List WordEntry)) (prev : Rat)
    (h : ¬(lastEnd w ws < w.start ∨ w.start < 0 ∨ dur < lastEnd w ws)) :
    runBatches dur repl ac sty ((w :: ws) :: bs) prev
      = ((if 0 < prev ∧ prev < w.start ∧ w.start ≠ 0 then
            [Segment.gap prev w.start] else [])
          ++ Segment.caption w.start (lastEnd w ws) (displayText repl ac (w :: ws)) sty
            :: (runBatches dur repl ac sty bs (lastEnd w ws)).1,
         (runBatches dur repl ac sty bs (lastEnd w ws)).2) := by
  simp only [runBatches]
  rw [if_neg h]

theorem runB_bounds (bs : List (List WordEntry)) : ∀ (prev : Rat),
    0 ≤ prev → prev ≤ dur →
    0 ≤ (runBatches dur repl ac sty bs prev).2
      ∧ (runBatches dur repl ac sty bs prev).2 ≤ dur
      ∧ ∀ seg ∈ (runBatches dur repl ac sty bs prev).1,
          0 ≤ spanStart seg ∧ spanStart seg ≤ spanEnd seg ∧ spanEnd seg ≤ dur := by
  induction bs with
  | nil =>
    intro prev h0 hd
    rw [runBatches_nil]
    exact ⟨h0, hd, by simp⟩
  | cons b bs ih =>
    intro prev h0 hd
    cases b with
    | nil =>
      rw [runBatches_emptyBatch]
      exact ih prev h0 hd
    | cons w ws =>
      by_cases hg : lastEnd w ws < w.start ∨ w.start < 0 ∨ dur < lastEnd w ws
      · rw [runBatches_invalid dur repl ac sty w ws bs prev hg]
        exact ih prev h0 hd
      · have hg' := hg
        push_neg at hg'
        obtain ⟨hse, hs0, hed⟩ := hg'
        have h0e : (0 : Rat) ≤ lastEnd w ws := le_trans hs0 hse
        obtain ⟨ih0, ihd, ihm⟩ := ih (lastEnd w ws) h0e hed
        rw [runBatches_valid dur repl ac sty w ws bs prev hg]
        refine ⟨ih0, ihd, ?_⟩
        intro seg hseg
        simp only [List.mem_append, List.mem_cons] at hseg
        rcases hseg with hgap | hcap | htail
        · by_cases hc : 0 < prev ∧ prev < w.start ∧ w.start ≠ 0

          · rw [if_pos hc] at hgap
            simp only [List.mem_singleton] at hgap
            subst hgap
            exact ⟨h0, le_of_lt hc.2.1, le_trans hse hed⟩
          · rw [if_neg hc] at hgap
            simp at hgap
        · subst hcap
          exact ⟨hs0, hse, hed⟩
        · exact ihm seg htail

theorem runB_caption (bs : List (List WordEntry)) : ∀ (prev s e : Rat) (t : String)
    (sty' : CaptionStyle),
    Segment.caption s e t sty' ∈ (runBatches dur repl ac sty bs prev).1 →
    sty' = sty ∧ ∃ b ∈ bs, s = batchStart b ∧ e = batchEnd b
      ∧ t = displayText repl ac b := by
  induction bs with
  | nil =>
    intro prev s e t sty' h
    rw [runBatches_nil] at h
    simp at h
  | cons b bs ih =>
    intro prev s e t sty' h
    cases b with
    | nil =>
      rw [runBatches_emptyBatch] at h
      obtain ⟨h1, b, hb, h2⟩ := ih prev s e t sty' h
      exact ⟨h1, b, List.mem_cons_of_mem _ hb, h2⟩
    | cons w ws =>
      by_cases hg : lastEnd w ws < w.start ∨ w.start < 0 ∨ dur < lastEnd w ws
      · rw [runBatches_invalid dur repl ac sty w ws bs prev hg] at h
        obtain ⟨h1, b, hb, h2⟩ := ih prev s e t sty' h
        exact ⟨h1, b, List.mem_cons_of_mem _ hb, h2⟩
      · rw [runBatches_valid dur repl ac sty w ws bs prev hg] at h
        simp only [List.mem_append, List.mem_cons] at h
        rcases h with hgap | hcap | htail
        · by_cases hc : 0 < prev ∧ prev < w.start ∧ w.start ≠ 0
          · rw [if_pos hc] at hgap
            simp at hgap
          · rw [if_neg hc] at hgap
            simp at hgap
        · obtain ⟨hs, he, ht, hsty⟩ := Segment.caption.injEq .. ▸ hcap
          exact ⟨hsty.symm ▸ rfl, (w :: ws), List.mem_cons_self _ _,
            by rw [hs]; rfl, by rw [he]; rfl, by rw [ht]⟩
        · obtain ⟨h1, b, hb, h2⟩ := ih (lastEnd w ws) s e t sty' htail
          exact ⟨h1, b, List.mem_cons_of_mem _ hb, h2⟩

theorem runB_gap (bs : List (List WordEntry)) : ∀ (prev a c : Rat),
    Segment.gap a c ∈ (runBatches dur repl ac sty bs prev).1 → a < c := by
  induction bs with
  | nil =>
    intro prev a c h
    rw [runBatches_nil] at h
    simp at h
  | cons b bs ih =>
    intro prev a c h
    cases b with
    | nil =>
      rw [runBatches_emptyBatch] at h
      exact ih prev a c h
    | cons w ws =>
      by_cases hg : lastEnd w ws < w.start ∨ w.start < 0 ∨ dur < lastEnd w ws
      · rw [runBatches_invalid dur repl ac sty w ws bs prev hg] at h
        exact ih prev a c h
      · rw [runBatches_valid dur repl ac sty w ws bs prev hg] at h
        simp only [List.mem_append, List.mem_cons] at h
        rcases h with hgap | hcap | htail
        · by_cases hc : 0 < prev ∧ prev < w.start ∧ w.start ≠ 0
          · rw [if_pos hc] at hgap
            simp only [List.mem_singleton, Segment.gap.injEq] at hgap
            exact hgap.1 ▸ hgap.2 ▸ hc.2.1
          · rw [if_neg hc] at hgap
            simp at hgap
        · simp at hcap
        · exact ih (lastEnd w ws) a c htail

theorem runB_between (bs : List (List WordEntry)) : ∀ (prev : Rat),
    batchChainB bs = true → leadOK prev bs →
    segsBetweenB prev (runBatches dur repl ac sty bs prev).2
        (runBatches dur repl ac sty bs prev).1 = true
      ∧ prev ≤ (runBatches dur repl ac sty bs prev).2 := by
  induction bs with
  | nil =>
    intro prev _ _
    rw [runBatches_nil]
    exact ⟨by simp [segsBetweenB], le_refl prev⟩
  | cons b bs ih =>
    intro prev hch hlead
    obtain ⟨hbse, hcross, hch'⟩ := (batchChainB_cons _ _).mp hch
    cases b with
    | nil =>
      rw [runBatches_emptyBatch]
      apply ih prev hch'
      have hp0 : prev ≤ 0 := by
        rcases hlead with h | h
        · exact h
        · simpa [batchStart] using h
      cases bs with
      | nil => trivial
      | cons b' bs' => exact Or.inl hp0
    | cons w ws =>
      by_cases hg : lastEnd w ws < w.start ∨ w.start < 0 ∨ dur < lastEnd w ws
      · rw [runBatches_invalid dur repl ac sty w ws bs prev hg]
        apply ih prev hch'
        cases bs with
        | nil => trivial
        | cons b' bs' =>
          rcases hlead with h | h
          · exact Or.inl h
          · refine Or.inr (le_trans h (le_trans hbse (hcross b' rfl)))
      · have hg' := hg
        push_neg at hg'
        obtain ⟨hse, hs0, hed⟩ := hg'
        have hps : prev ≤ w.start := by
          rcases hlead with h | h
          · exact le_trans h hs0
          · exact h
        have hlead' : leadOK (lastEnd w ws) bs := by
          cases bs with
          | nil => trivial
          | cons b' bs' => exact Or.inr (hcross b' rfl)
        obtain ⟨hbet, hloop⟩ := ih (lastEnd w ws) hch' hlead'
        rw [runBatches_valid dur repl ac sty w ws bs prev hg]
        constructor
        · by_cases hc : 0 < prev ∧ prev < w.start ∧ w.start ≠ 0
          · rw [if_pos hc]
            simp only [List.cons_append, List.nil_append]
            refine (segsBetweenB_cons _ _ _ _).mpr ⟨le_refl prev, le_of_lt hc.2.1, ?_⟩
            exact (segsBetweenB_cons _ _ _ _).mpr ⟨le_refl w.start, hse, hbet⟩
          · rw [if_neg hc]
            simp only [List.nil_append]
            exact (segsBetweenB_cons _ _ _ _).mpr ⟨hps, hse, hbet⟩
        · exact le_trans hps (le_trans hse hloop)

theorem runB_tiles (bs : List (List WordEntry)) : ∀ (prev : Rat),
    0 < prev → prev ≤ dur → tiledBatchesFromB dur prev bs = true →
    tilesB prev (runBatches dur repl ac sty bs prev).2
        (runBatches dur repl ac sty bs prev).1 = true
      ∧ 0 < (runBatches dur repl ac sty bs prev).2
      ∧ (runBatches dur repl ac sty bs prev).2 ≤ dur := by
  induction bs with
  | nil =>
    intro prev hp0 hpd _
    rw [runBatches_nil]
    exact ⟨by simp [tilesB], hp0, hpd⟩
  | cons b bs ih =>
    intro prev hp0 hpd ht
    obtain ⟨hne, hlo, hs0, hse, he0, hed, ht'⟩ := (tiledBatchesFromB_cons _ _ _ _).mp ht
    cases b with
    | nil => exact absurd rfl hne
    | cons w ws =>
      have hg : ¬(lastEnd w ws < w.start ∨ w.start < 0 ∨ dur < lastEnd w ws) := by
        push_neg
        exact ⟨hse, hs0, hed⟩
      obtain ⟨htl, hf0, hfd⟩ := ih (lastEnd w ws) he0 hed ht'
      rw [runBatches_valid dur repl ac sty w ws bs prev hg]
      refine ⟨?_, hf0, hfd⟩
      by_cases hlt : prev < w.start
      · have hc : 0 < prev ∧ prev < w.start ∧ w.start ≠ 0 :=
          ⟨hp0, hlt, ne_of_gt (lt_trans hp0 hlt)⟩
        rw [if_pos hc]
        simp only [List.cons_append, List.nil_append]
        refine (tilesB_cons _ _ _ _).mpr ⟨rfl, le_of_lt hlt, ?_⟩
        exact (tilesB_cons _ _ _ _).mpr ⟨rfl, hse, htl⟩
      · have heq : prev = w.start := le_antisymm hlo (not_lt.mp hlt)
        have hc : ¬(0 < prev ∧ prev < w.start ∧ w.start ≠ 0) := fun h => hlt h.2.1
        rw [if_neg hc]
        simp only [List.nil_append]
        exact (tilesB_cons _ _ _ _).mpr ⟨heq.symm, hse, htl⟩

theorem runB_allInvalid (bs : List (List WordEntry)) : ∀ (prev : Rat),
    (∀ b ∈ bs, batchInvalidB dur b = true) →
    runBatches dur repl ac sty bs prev = ([], prev) := by
  induction bs with
  | nil => intro prev _; rfl
  | cons b bs ih =>
    intro prev h
    cases b with
    | nil =>
      rw [runBatches_emptyBatch]
      exact ih prev (fun b hb => h b (List.mem_cons_of_mem _ hb))
    | cons w ws =>
      have hb := h (w :: ws) (List.mem_cons_self _ _)
      have hg : lastEnd w ws < w.start ∨ w.start < 0 ∨ dur < lastEnd w ws :=
        of_decide_eq_true hb
      rw [runBatches_invalid dur repl ac sty w ws bs prev hg]
      exact ih prev (fun b hb' => h b (List.mem_cons_of_mem _ hb'))

end RunBatchesLemmas

theorem segsBetween_trailing (l : List Segment) : ∀ (lo fp hi : Rat),
    segsBetweenB lo fp l = true →
    segsFromB lo (l ++ if fp < hi then [Segment.gap fp hi] else []) = true := by
  induction l with
  | nil =>
    intro lo fp hi h
    simp only [segsBetweenB, decide_eq_true_eq] at h
    by_cases hfh : fp < hi
    · rw [if_pos hfh]
      simp only [List.nil_append]
      exact (segsFromB_cons _ _ _).mpr ⟨h, le_of_lt hfh, rfl⟩
    · rw [if_neg hfh]
      simp [segsFromB]
  | cons s rest ih =>
    intro lo fp hi h
    obtain ⟨h1, h2, h3⟩ := (segsBetweenB_cons _ _ _ _).mp h
    simp only [List.cons_append]
    exact (segsFromB_cons _ _ _).mpr ⟨h1, h2, ih _ _ _ h3⟩

theorem tiles_trailing (l : List Segment) : ∀ (lo fp hi : Rat),
    tilesB lo fp l = true → fp ≤ hi →
    tilesB lo hi (l ++ if fp < hi then [Segment.gap fp hi] else []) = true := by
  induction l with
  | nil =>
    intro lo fp hi h hle
    simp only [tilesB, decide_eq_true_eq] at h
    subst h
    by_cases hfh : lo < hi
    · rw [if_pos hfh]
      simp only [List.nil_append]
      exact (tilesB_cons _ _ _ _).mpr ⟨rfl, le_of_lt hfh, by simp [tilesB, spanEnd]⟩
    · rw [if_neg hfh]
      have h2 : lo = hi := le_antisymm hle (not_lt.mp hfh)
      simp [tilesB, h2]
  | cons s rest ih =>
    intro lo fp hi h hle
    obtain ⟨h1, h2, h3⟩ := (tilesB_cons _ _ _ _).mp h
    simp only [List.cons_append]
    exact (tilesB_cons _ _ _ _).mpr ⟨h1, h2, ih _ _ _ h3 hle⟩

theorem segmentAll_eq (transcribe : List WordEntry) (rep : List ReplacementRule)
    (st : CaptionSettings) (dur : Rat) (fd : Option (List String)) :
    segmentAll transcribe rep st dur fd
      = (runBatches dur (buildReplacements rep) (st.all_caps.getD false)
          (captionStyle st fd) (toBatches (st.max_words_per_line.getD 1) transcribe) 0).1
        ++ (if finalCursor transcribe rep st dur fd < dur then
              [Segment.gap (finalCursor transcribe rep st dur fd) dur] else []) := rfl

/-- C8: `find_font_file` returns the fixed default `fonts/Arial.ttf` whenever
the font directory is absent or holds no `.ttf`/`.TTF` candidate, for every
requested family name (and, being a total function of its inputs, it never
fails). -/
theorem C8_font_default (name : String) (fd : Option (List String))
    (h : fd = none ∨ ∃ files, fd = some files ∧ fontCandidates files = []) :
    find_font_file name fd = "fonts/Arial.ttf" := by
  rcases h with h | ⟨files, hfd, hcand⟩
  · subst h
    rfl
  · rw [hfd]
    simp [find_font_file, hcand]

theorem C8_witness :
    fontCandidates ["notes.txt"] = [] ∧
      find_font_file "Roboto" (some ["notes.txt"]) = "fonts/Arial.ttf" :=
  ⟨by decide, C8_font_default "Roboto" (some ["notes.txt"])
    (Or.inr ⟨["notes.txt"], rfl, by decide⟩)⟩

/-- C9: for every input word-entry sequence and every `video_duration ≥ 0`,
every emitted segment (gap, caption, or trailing gap) satisfies
`0 ≤ start ≤ end ≤ video_duration`, and the cursor `previous_end_time`
reaching the trailing check satisfies `0 ≤ previous_end_time ≤
video_duration`. -/
theorem C9_segment_bounds (words : List WordEntry) (rep : List ReplacementRule)
    (st : CaptionSettings) (dur : Rat) (fd : Option (List String)) (hd : 0 ≤ dur) :
    (∀ seg ∈ segmentAll words rep st dur fd,
        0 ≤ spanStart seg ∧ spanStart seg ≤ spanEnd seg ∧ spanEnd seg ≤ dur)
      ∧ 0 ≤ finalCursor words rep st dur fd ∧ finalCursor words rep st dur fd ≤ dur := by
  obtain ⟨h0, hdur, hmem⟩ := runB_bounds dur (buildReplacements rep)
    (st.all_caps.getD false) (captionStyle st fd)
    (toBatches (st.max_words_per_line.getD 1) words) 0 le_rfl hd
  refine ⟨?_, h0, hdur⟩
  intro seg hseg
  rw [segmentAll_eq] at hseg
  rcases List.mem_append.mp hseg with h | h
  · exact hmem seg h
  · by_cases hc : finalCursor words rep st dur fd < dur
    · rw [if_pos hc] at h
      simp only [List.mem_singleton] at h
      subst h
      exact ⟨h0, le_of_lt hc, le_rfl⟩
    · rw [if_neg hc] at h
      simp at h

theorem C9_witness :
    (0 : Rat) ≤ 1
      ∧ 0 ≤ finalCursor [⟨"a", 0, 1⟩] [] {} 1 none
      ∧ finalCursor [⟨"a", 0, 1⟩] [] {} 1 none ≤ 1 :=
  ⟨by norm_num, (C9_segment_bounds [⟨"a", 0, 1⟩] [] {} 1 none (by norm_num)).2⟩

/-- C10: the stroke (outline) color of every emitted caption style equals
`settings.line_color` when present and `"black"` otherwise, and the whole
output is independent of `settings.outline_color`: changing only
`outline_color` leaves both the segment list and the final result
unchanged. -/
theorem C10_outline_color_ignored (words : List WordEntry)
    (rep : List ReplacementRule) (st : CaptionSettings) (dur : Rat)
    (fd : Option (List String)) (c : Option String) :
    (∀ (s e : Rat) (t : String) (sty : CaptionStyle),
        Segment.caption s e t sty ∈ segmentAll words rep st dur fd →
        sty.stroke_color = st.line_color.getD "black")
      ∧ segmentAll words rep { st with outline_color := c } dur fd
          = segmentAll words rep st dur fd
      ∧ processTranscription words rep { st with outline_color := c } dur fd
          = processTranscription words rep st dur fd := by
  refine ⟨?_, rfl, rfl⟩
  intro s e t sty h
  rw [segmentAll_eq] at h
  rcases List.mem_append.mp h with h | h
  · have hsty := (runB_caption dur (buildReplacements rep) (st.all_caps.getD false)
      (captionStyle st fd) (toBatches (st.max_words_per_line.getD 1) words) 0
      s e t sty h).1
    rw [hsty]
    rfl
  · by_cases hc : finalCursor words rep st dur fd < dur
    · rw [if_pos hc] at h
      simp at h
    · rw [if_neg hc] at h
      simp at h

theorem C10_witness :
    Segment.caption 0 1 "a" (captionStyle { line_color := some "red" } none)
        ∈ segmentAll [⟨"a", 0, 1⟩] [] { line_color := some "red" } 1 none
      ∧ (captionStyle { line_color := some "red" } none).stroke_color = "red" :=
  ⟨by decide,
    (C10_outline_color_ignored [⟨"a", 0, 1⟩] [] { line_color := some "red" } 1 none
        none).1 0 1 "a" (captionStyle { line_color := some "red" } none) (by decide)⟩

/-- C5: within the loop, a `Gap` is emitted before a valid batch's caption
precisely when `previous_end_time > 0` and `batch_start > previous_end_time`
and `batch_start ≠ 0`, spans `[previous_end_time, batch_start]`, and (since
`batch_start > previous_end_time > 0` forces `batch_start ≠ 0`) the
three-part condition is equivalent to the first two conjuncts; in
particular, starting from cursor `0`, no gap ever precedes the first
accepted caption: the loop's output is empty or begins with a caption. -/
theorem C5_gap_iff (dur : Rat) (repl : List (String × String)) (ac : Bool)
    (sty : CaptionStyle) (w : WordEntry) (ws : List WordEntry)
    (bs : List (List WordEntry)) (prev : Rat)
    (hvalid : ¬(lastEnd w ws < w.start ∨ w.start < 0 ∨ dur < lastEnd w ws)) :
    (((runBatches dur repl ac sty ((w :: ws) :: bs) prev).1.head?
        = some (Segment.gap prev w.start)) ↔ (0 < prev ∧ prev < w.start))
      ∧ ((0 < prev ∧ prev < w.start ∧ w.start ≠ 0) ↔ (0 < prev ∧ prev < w.start))
      ∧ ∀ bs' : List (List WordEntry),
          (runBatches dur repl ac sty bs' 0).1 = []
          ∨ ∃ (s e : Rat) (t : String) (rest : List Segment),
              (runBatches dur repl ac sty bs' 0).1
                = Segment.caption s e t sty :: rest := by
  have hiff : (0 < prev ∧ prev < w.start ∧ w.start ≠ 0)
      ↔ (0 < prev ∧ prev < w.start) := by
    constructor
    · rintro ⟨h1, h2, _⟩
      exact ⟨h1, h2⟩
    · rintro ⟨h1, h2⟩
      exact ⟨h1, h2, ne_of_gt (lt_trans h1 h2)⟩
  refine ⟨?_, hiff, ?_⟩
  · rw [runBatches_valid dur repl ac sty w ws bs prev hvalid]
    by_cases hc : 0 < prev ∧ prev < w.start ∧ w.start ≠ 0
    · rw [if_pos hc]
      simp only [List.cons_append, List.head?_cons]
      exact iff_of_true trivial (hiff.mp hc)
    · rw [if_neg hc]
      simp only [List.nil_append, List.head?_cons]
      constructor
      · intro hq
        simp at hq
      · intro hq
        exact absurd (hiff.mpr hq) hc
  · intro bs'
    induction bs' with
    | nil => exact Or.inl rfl
    | cons b bs' ih =>
      cases b with
      | nil =>
        rw [runBatches_emptyBatch]
        exact ih
      | cons v vs =>
        by_cases hg : lastEnd v vs < v.start ∨ v.start < 0 ∨ dur < lastEnd v vs
        · rw [runBatches_invalid dur repl ac sty v vs bs' 0 hg]
          exact ih
        · rw [runBatches_valid dur repl ac sty v vs bs' 0 hg]
          right
          have hc : ¬(0 < (0 : Rat) ∧ (0 : Rat) < v.start ∧ v.start ≠ 0) := by
            rintro ⟨h1, -, -⟩
            exact lt_irrefl 0 h1
          rw [if_neg hc]
          exact ⟨v.start, lastEnd v vs, displayText repl ac (v :: vs), _, rfl⟩

theorem C5_witness :
    ¬(lastEnd ⟨"b", 2, 3⟩ [] < (⟨"b", 2, 3⟩ : WordEntry).start
        ∨ (⟨"b", 2, 3⟩ : WordEntry).start < 0 ∨ (3 : Rat) < lastEnd ⟨"b", 2, 3⟩ [])
      ∧ ((runBatches 3 [] false (captionStyle {} none) [[⟨"b", 2, 3⟩]] 1).1.head?
          = some (Segment.gap 1 2)) :=
  ⟨by decide,
    ((C5_gap_iff 3 [] false (captionStyle {} none) ⟨"b", 2, 3⟩ [] [] 1
        (by decide)).1).mpr ⟨by norm_num, by norm_num⟩⟩

/-- C1 (amended): when every batch is discarded by the validity gate (which
covers the empty transcript), the loop emits nothing and the cursor stays at
`0`, so the run fails with the `"No valid word segments found in
transcription"` error precisely when `video_duration ≤ 0`; when
`video_duration > 0`, the trailing-remainder clip makes the clip list
nonempty and the run succeeds with a single full-length `Gap` instead of
failing. -/
theorem C1_all_invalid (words : List WordEntry) (rep : List ReplacementRule)
    (st : CaptionSettings) (dur : Rat) (fd : Option (List String))
    (h : ∀ b ∈ toBatches (st.max_words_per_line.getD 1) words,
      batchInvalidB dur b = true) :
    processTranscription words rep st dur fd
      = if 0 < dur then Except.ok [Segment.gap 0 dur]
        else Except.error "No valid word segments found in transcription" := by
  have hrun := runB_allInvalid dur (buildReplacements rep) (st.all_caps.getD false)
    (captionStyle st fd) (toBatches (st.max_words_per_line.getD 1) words) 0 h
  by_cases hd : (0 : Rat) < dur
  · simp [processTranscription, segmentAll, hrun, hd]
  · simp [processTranscription, segmentAll, hrun, hd]

theorem C1_witness :
    (∀ b ∈ toBatches 1 ([] : List WordEntry), batchInvalidB 1 b = true)
      ∧ processTranscription [] [] {} 1 none = Except.ok [Segment.gap 0 1] :=
  ⟨by simp [toBatches_nil],
    (C1_all_invalid [] [] {} 1 none (by simp [toBatches_nil])).trans (by norm_num)⟩

theorem C1_counterexample :
    processTranscription [] [] {} 1 none = Except.ok [Segment.gap 0 1] := by
  rfl

theorem applyReplacements_cons (p : String × String) (d : List (String × String))
    (w : String) :
    applyReplacements (p :: d) w
      = applyReplacements d (if containsCI w p.1 then p.2 else w) := rfl

theorem applyReplacements_shape (d : List (String × String)) : ∀ w,
    applyReplacements d w = w ∨ ∃ p ∈ d, applyReplacements d w = p.2 := by
  induction d with
  | nil => intro w; exact Or.inl rfl
  | cons p d ih =>
    intro w
    rw [applyReplacements_cons]
    by_cases hc : containsCI w p.1 = true
    · rw [if_pos hc]
      rcases ih p.2 with h | ⟨q, hq, h⟩
      · exact Or.inr ⟨p, List.mem_cons_self _ _, h⟩
      · exact Or.inr ⟨q, List.mem_cons_of_mem _ hq, h⟩
    · rw [if_neg hc]
      rcases ih w with h | ⟨q, hq, h⟩
      · exact Or.inl h
      · exact Or.inr ⟨q, List.mem_cons_of_mem _ hq, h⟩

theorem applyReplacements_fix (d : List (String × String)) (x : String)
    (h : ∀ p ∈ d, containsCI x p.1 = false) : applyReplacements d x = x := by
  induction d with
  | nil => rfl
  | cons p d ih =>
    rw [applyReplacements_cons]
    rw [if_neg (by simp [h p (List.mem_cons_self _ _)])]
    exact ih (fun q hq => h q (List.mem_cons_of_mem _ hq))

theorem dictInsert_mem {d : List (String × String)} {k v : String}
    {p : String × String} (h : p ∈ dictInsert d k v) :
    ((∃ q ∈ d, p.1 = q.1) ∨ p.1 = k) ∧ ((∃ q ∈ d, p.2 = q.2) ∨ p.2 = v) := by
  unfold dictInsert at h
  split at h
  · obtain ⟨q, hq, hpq⟩ := List.mem_map.mp h
    by_cases hqk : q.1 = k
    · rw [if_pos hqk] at hpq
      constructor
      · exact Or.inl ⟨q, hq, by rw [← hpq]⟩
      · exact Or.inr (by rw [← hpq])
    · rw [if_neg hqk] at hpq
      subst hpq
      exact ⟨Or.inl ⟨q, hq, rfl⟩, Or.inl ⟨q, hq, rfl⟩⟩
  · rcases List.mem_append.mp h with h | h
    · exact ⟨Or.inl ⟨p, h, rfl⟩, Or.inl ⟨p, h, rfl⟩⟩
    · simp only [List.mem_singleton] at h
      subst h
      exact ⟨Or.inr rfl, Or.inr rfl⟩

theorem buildReplacements_mem : ∀ (rules : List ReplacementRule)
    (d : List (String × String)) (p : String × String),
    p ∈ rules.foldl (fun acc r => dictInsert acc r.find r.replace) d →
    ((∃ q ∈ d, p.1 = q.1) ∨ ∃ r ∈ rules, p.1 = r.find)
      ∧ ((∃ q ∈ d, p.2 = q.2) ∨ ∃ r ∈ rules, p.2 = r.replace) := by
  intro rules
  induction rules with
  | nil =>
    intro d p h
    simp only [List.foldl_nil] at h
    exact ⟨Or.inl ⟨p, h, rfl⟩, Or.inl ⟨p, h, rfl⟩⟩
  | cons r rs ih =>
    intro d p h
    simp only [List.foldl_cons] at h
    obtain ⟨h1, h2⟩ := ih (dictInsert d r.find r.replace) p h
    constructor
    · rcases h1 with ⟨q, hq, hpq⟩ | ⟨r', hr', hpr⟩
      · rcases (dictInsert_mem hq).1 with ⟨q', hq', hqq⟩ | hqk
        · exact Or.inl ⟨q', hq', hpq.trans hqq⟩
        · exact Or.inr ⟨r, List.mem_cons_self _ _, hpq.trans hqk⟩
      · exact Or.inr ⟨r', List.mem_cons_of_mem _ hr', hpr⟩
    · rcases h2 with ⟨q, hq, hpq⟩ | ⟨r', hr', hpr⟩
      · rcases (dictInsert_mem hq).2 with ⟨q', hq', hqq⟩ | hqv
        · exact Or.inl ⟨q', hq', hpq.trans hqq⟩
        · exact Or.inr ⟨r, List.mem_cons_self _ _, hpq.trans hqv⟩
      · exact Or.inr ⟨r', List.mem_cons_of_mem _ hr', hpr⟩

theorem dictInsert_notmem (d : List (String × String)) (k v : String)
    (h : ∀ p ∈ d, p.1 ≠ k) : dictInsert d k v = d ++ [(k, v)] := by
  have hc : ¬(d.any (fun p => p.1 = k) = true) := by
    simp only [List.any_eq_true, decide_eq_true_eq]
    rintro ⟨p, hp, hpk⟩
    exact h p hp hpk
  unfold dictInsert
  rw [if_neg hc]

theorem buildReplacements_distinct_aux : ∀ (rules : List ReplacementRule)
    (d : List (String × String)),
    (∀ r ∈ rules, ∀ p ∈ d, p.1 ≠ r.find) →
    rules.Pairwise (fun r₁ r₂ => r₁.find ≠ r₂.find) →
    rules.foldl (fun acc r => dictInsert acc r.find r.replace) d
      = d ++ rules.map (fun r => (r.find, r.replace)) := by
  intro rules
  induction rules with
  | nil =>
    intro d _ _
    simp
  | cons r rs ih =>
    intro d hd hp
    simp only [List.foldl_cons, List.map_cons]
    rw [dictInsert_notmem d r.find r.replace
      (fun p hp' => hd r (List.mem_cons_self _ _) p hp')]
    have hnew : ∀ r' ∈ rs, ∀ p ∈ d ++ [(r.find, r.replace)], p.1 ≠ r'.find := by
      intro r' hr' p hp'
      rcases List.mem_append.mp hp' with h | h
      · exact hd r' (List.mem_cons_of_mem _ hr') p h
      · simp only [List.mem_singleton] at h
        subst h
        exact (List.pairwise_cons.mp hp).1 r' hr'
    rw [ih (d ++ [(r.find, r.replace)]) hnew (List.pairwise_cons.mp hp).2]
    simp

theorem buildReplacements_distinct (rules : List ReplacementRule)
    (hp : rules.Pairwise (fun r₁ r₂ => r₁.find ≠ r₂.find)) :
    buildReplacements rules = rules.map (fun r => (r.find, r.replace)) := by
  have h := buildReplacements_distinct_aux rules []
    (by intro r _ p hp'; simp at hp') hp
  simpa using h

theorem applyReplacements_map (rules : List ReplacementRule) (w : String) :
    applyReplacements (rules.map (fun r => (r.find, r.replace))) w
      = applyRulesSeq rules w := by
  unfold applyReplacements applyRulesSeq
  rw [List.foldl_map]

/-- C4 (amended): line 165 collapses the rule list into a dict keyed by the
exact `find` string, so a later rule with the same `find` overwrites the
earlier rule's `replace` (keeping the earlier position) instead of being
applied after it; when all `find` values are pairwise distinct, `normalize`
does apply the rules in the given sequence order with whole-word
case-insensitive-substring replacement. -/
theorem C4_normalize_order (rules : List ReplacementRule)
    (hp : rules.Pairwise (fun r₁ r₂ => r₁.find ≠ r₂.find)) (w : String) (ac : Bool) :
    normalize w rules ac
      = (if ac then (applyRulesSeq rules w).toUpper else applyRulesSeq rules w) := by
  unfold normalize
  rw [buildReplacements_distinct rules hp, applyReplacements_map]

theorem C4_witness :
    ([⟨"a", "b"⟩, ⟨"c", "d"⟩] : List ReplacementRule).Pairwise
        (fun r₁ r₂ => r₁.find ≠ r₂.find)
      ∧ normalize "a" [⟨"a", "b"⟩, ⟨"c", "d"⟩] false
          = applyRulesSeq [⟨"a", "b"⟩, ⟨"c", "d"⟩] "a" :=
  ⟨by decide, C4_normalize_order [⟨"a", "b"⟩, ⟨"c", "d"⟩] (by decide) "a" false⟩

theorem C4_counterexample :
    normalize "a" [⟨"a", "b"⟩, ⟨"a", "c"⟩] false = "c"
      ∧ applyRulesSeq [⟨"a", "b"⟩, ⟨"a", "c"⟩] "a" = "b" :=
  ⟨by decide, by decide⟩

/-- C7: when no rule's `replace` value contains any rule's `find` value as a
case-insensitive substring, the word-replacement pass is idempotent:
applying it twice equals applying it once. -/
theorem C7_replacement_idempotent (rules : List ReplacementRule)
    (h : ∀ r₁ ∈ rules, ∀ r₂ ∈ rules, containsCI r₁.replace r₂.find = false)
    (w : String) :
    applyReplacements (buildReplacements rules)
        (applyReplacements (buildReplacements rules) w)
      = applyReplacements (buildReplacements rules) w := by
  rcases applyReplacements_shape (buildReplacements rules) w with heq | ⟨p, hp, heq⟩
  · rw [heq]
    exact heq
  · have hval := (buildReplacements_mem rules [] p hp).2
    rcases hval with ⟨q, hq, -⟩ | ⟨r₁, hr₁, hp2⟩
    · exact absurd hq (List.not_mem_nil q)
    · have hfix : applyReplacements (buildReplacements rules) p.2 = p.2 := by
        apply applyReplacements_fix
        intro q hq
        rcases (buildReplacements_mem rules [] q hq).1 with ⟨q', hq', -⟩ | ⟨r₂, hr₂, hq1⟩
        · exact absurd hq' (List.not_mem_nil q')
        · rw [hq1, hp2]
          exact h r₁ hr₁ r₂ hr₂
      rw [heq, hfix]

theorem C7_witness :
    (∀ r₁ ∈ ([⟨"bad", "good"⟩] : List ReplacementRule),
        ∀ r₂ ∈ ([⟨"bad", "good"⟩] : List ReplacementRule),
        containsCI r₁.replace r₂.find = false)
      ∧ applyReplacements (buildReplacements [⟨"bad", "good"⟩])
            (applyReplacements (buildReplacements [⟨"bad", "good"⟩]) "bad")
          = applyReplacements (buildReplacements [⟨"bad", "good"⟩]) "bad" :=
  ⟨by decide, C7_replacement_idempotent [⟨"bad", "good"⟩] (by decide) "bad"⟩

theorem toBatches_one : ∀ (l : List WordEntry),
    toBatches 1 l = l.map (fun u => [u]) := by
  intro l
  induction l with
  | nil => rfl
  | cons w ws ih =>
    rw [toBatches_cons]
    simp [ih]

/-- C6 (amended): with `max_words_per_line = 1`, dropping a single malformed
entry (negative start, end < start, or end > duration) does not change the
result at all; with wider batches the claim fails, because removing an entry
shifts every later batch boundary and the validity gate acts on whole
batches. -/
theorem C6_isolation (xs ys : List WordEntry) (bad : WordEntry)
    (rep : List ReplacementRule) (st : CaptionSettings) (dur : Rat)
    (fd : Option (List String))
    (hm : st.max_words_per_line.getD 1 = 1)
    (hbad : bad.«end» < bad.start ∨ bad.start < 0 ∨ dur < bad.«end») :
    processTranscription (xs ++ bad :: ys) rep st dur fd
      = processTranscription (xs ++ ys) rep st dur fd := by
  have key : ∀ prev : Rat,
      runBatches dur (buildReplacements rep) (st.all_caps.getD false)
        (captionStyle st fd) (toBatches 1 (xs ++ bad :: ys)) prev
      = runBatches dur (buildReplacements rep) (st.all_caps.getD false)
        (captionStyle st fd) (toBatches 1 (xs ++ ys)) prev := by
    intro prev
    rw [toBatches_one, toBatches_one]
    induction xs generalizing prev with
    | nil =>
      simp only [List.nil_append, List.map_cons]
      rw [runBatches_invalid _ _ _ _ bad [] _ prev hbad]
    | cons x xs ih =>
      simp only [List.cons_append, List.map_cons]
      by_cases hg : lastEnd x [] < x.start ∨ x.start < 0 ∨ dur < lastEnd x []
      · rw [runBatches_invalid _ _ _ _ x [] _ prev hg,
          runBatches_invalid _ _ _ _ x [] _ prev hg]
        exact ih prev
      · rw [runBatches_valid _ _ _ _ x [] _ prev hg,
          runBatches_valid _ _ _ _ x [] _ prev hg]
        rw [ih (lastEnd x [])]
  simp only [processTranscription, segmentAll, hm, key 0]

theorem C6_witness :
    ((⟨"x", 0, 5⟩ : WordEntry).«end» < (⟨"x", 0, 5⟩ : WordEntry).start
        ∨ (⟨"x", 0, 5⟩ : WordEntry).start < 0
        ∨ (2 : Rat) < (⟨"x", 0, 5⟩ : WordEntry).«end»)
      ∧ processTranscription [⟨"a", 0, 1⟩, ⟨"x", 0, 5⟩, ⟨"c", 1, 2⟩] [] {} 2 none
          = processTranscription [⟨"a", 0, 1⟩, ⟨"c", 1, 2⟩] [] {} 2 none :=
  ⟨by decide,
    C6_isolation [⟨"a", 0, 1⟩] [⟨"c", 1, 2⟩] ⟨"x", 0, 5⟩ [] {} 2 none rfl (by decide)⟩

theorem C6_counterexample :
    segmentAll [⟨"a", 0, 1⟩, ⟨"x", 0, 5⟩, ⟨"c", 1, 2⟩] []
        { max_words_per_line := some 2 } 2 none
      ≠ segmentAll [⟨"a", 0, 1⟩, ⟨"c", 1, 2⟩] []
        { max_words_per_line := some 2 } 2 none := by
  decide

/-- C3 (amended): for every input whose entries span forward
(`start ≤ end`) and are chain-ordered (each entry ends no later than the
next starts), the full emitted sequence is time-ordered and non-overlapping
with every span inside `[0, ∞)`; every `Gap` is strictly positive-length,
while a `Caption` may be degenerate (`start = end` passes the gate); and
captions carry exactly their batch's unclamped `[batch_start, batch_end]`
span and text. For adversarial (out-of-order) input the ordering claim is
false, as the counterexample shows. -/
theorem C3_output_ordered (words : List WordEntry) (rep : List ReplacementRule)
    (st : CaptionSettings) (dur : Rat) (fd : Option (List String))
    (hm : 1 ≤ st.max_words_per_line.getD 1)
    (hv : ∀ u ∈ words, u.start ≤ u.«end») (ho : orderedB words = true) :
    segsFromB 0 (segmentAll words rep st dur fd) = true
      ∧ (∀ a c : Rat, Segment.gap a c ∈ segmentAll words rep st dur fd → a < c)
      ∧ (∀ (s e : Rat) (t : String) (sty : CaptionStyle),
          Segment.caption s e t sty ∈ segmentAll words rep st dur fd →
          ∃ b ∈ toBatches (st.max_words_per_line.getD 1) words,
            s = batchStart b ∧ e = batchEnd b
              ∧ t = displayText (buildReplacements rep) (st.all_caps.getD false) b) := by
  have hch := toBatches_chain (st.max_words_per_line.getD 1) words hv ho
  have hlead : leadOK 0 (toBatches (st.max_words_per_line.getD 1) words) := by
    cases toBatches (st.max_words_per_line.getD 1) words with
    | nil => trivial
    | cons b bs => exact Or.inl le_rfl
  obtain ⟨hbet, -⟩ := runB_between dur (buildReplacements rep) (st.all_caps.getD false)
    (captionStyle st fd) (toBatches (st.max_words_per_line.getD 1) words) 0 hch hlead
  refine ⟨?_, ?_, ?_⟩
  · rw [segmentAll_eq]
    exact segsBetween_trailing _ _ _ _ hbet
  · intro a c h
    rw [segmentAll_eq] at h
    rcases List.mem_append.mp h with h | h
    · exact runB_gap dur (buildReplacements rep) (st.all_caps.getD false)
        (captionStyle st fd) (toBatches (st.max_words_per_line.getD 1) words) 0 a c h
    · by_cases hc : finalCursor words rep st dur fd < dur
      · rw [if_pos hc] at h
        simp only [List.mem_singleton, Segment.gap.injEq] at h
        rw [h.1, h.2]
        exact hc
      · rw [if_neg hc] at h
        simp at h
  · intro s e t sty h
    rw [segmentAll_eq] at h
    rcases List.mem_append.mp h with h | h
    · exact (runB_caption dur (buildReplacements rep) (st.all_caps.getD false)
        (captionStyle st fd) (toBatches (st.max_words_per_line.getD 1) words)
        0 s e t sty h).2
    · by_cases hc : finalCursor words rep st dur fd < dur
      · rw [if_pos hc] at h
        simp at h
      · rw [if_neg hc] at h
        simp at h

theorem C3_witness :
    orderedB [⟨"a", 0, 1⟩, ⟨"b", 2, 3⟩] = true
      ∧ segsFromB 0 (segmentAll [⟨"a", 0, 1⟩, ⟨"b", 2, 3⟩] [] {} 3 none) = true :=
  ⟨by decide,
    (C3_output_ordered [⟨"a", 0, 1⟩, ⟨"b", 2, 3⟩] [] {} 3 none (by decide)
      (by decide) (by decide)).1⟩

theorem C3_counterexample :
    segsFromB 0 (segmentAll [⟨"a", 2, 3⟩, ⟨"b", 0, 1⟩, ⟨"c", 1, 1⟩] [] {} 3 none)
        = false
      ∧ Segment.caption 1 1 "c" (captionStyle {} none)
          ∈ segmentAll [⟨"a", 2, 3⟩, ⟨"b", 0, 1⟩, ⟨"c", 1, 1⟩] [] {} 3 none :=
  ⟨by decide, by decide⟩

/-- C2 (amended): for a nonempty transcript whose entries all pass the
validity gate strictly (`0 ≤ start < end ≤ duration`) and are chain-ordered,
the emitted segment list tiles `[first_word_start, video_duration]` exactly
once with no hole and no overlap; the prefix `[0, first_word_start)` before
the first caption is NOT covered (no gap is ever emitted before the first
accepted caption), contrary to the claim's "including no hole before the
first caption". -/
theorem C2_tiles (w : WordEntry) (ws : List WordEntry) (rep : List ReplacementRule)
    (st : CaptionSettings) (dur : Rat) (fd : Option (List String))
    (hm : 1 ≤ st.max_words_per_line.getD 1)
    (hv : ∀ u ∈ w :: ws, 0 ≤ u.start ∧ u.start < u.«end» ∧ u.«end» ≤ dur)
    (ho : orderedB (w :: ws) = true) :
    tilesB w.start dur (segmentAll (w :: ws) rep st dur fd) = true := by
  have htb := toBatches_tiled (st.max_words_per_line.getD 1) dur (w :: ws) w.start hv ho
    (by
      intro u hu
      simp only [List.head?_cons, Option.some.injEq] at hu
      subst hu
      exact le_rfl)
  rw [toBatches_cons] at htb
  obtain ⟨-, -, hs0, hse, he0, hed, ht'⟩ := (tiledBatchesFromB_cons _ _ _ _).mp htb
  have hg : ¬(lastEnd w (ws.take (st.max_words_per_line.getD 1 - 1)) < w.start
      ∨ w.start < 0
      ∨ dur < lastEnd w (ws.take (st.max_words_per_line.getD 1 - 1))) := by
    push_neg
    exact ⟨hse, hs0, hed⟩
  obtain ⟨htl, hf0, hfd⟩ := runB_tiles dur (buildReplacements rep)
    (st.all_caps.getD false) (captionStyle st fd)
    (toBatches (st.max_words_per_line.getD 1)
      (ws.drop (st.max_words_per_line.getD 1 - 1)))
    (lastEnd w (ws.take (st.max_words_per_line.getD 1 - 1))) he0 hed ht'
  simp only [segmentAll]
  rw [toBatches_cons]
  rw [runBatches_valid dur (buildReplacements rep) (st.all_caps.getD false)
    (captionStyle st fd) w (ws.take (st.max_words_per_line.getD 1 - 1))
    (toBatches (st.max_words_per_line.getD 1)
      (ws.drop (st.max_words_per_line.getD 1 - 1))) 0 hg]
  rw [if_neg (by
    rintro ⟨h0, -, -⟩
    exact lt_irrefl 0 h0)]
  simp only [List.nil_append, List.cons_append]
  refine (tilesB_cons _ _ _ _).mpr ⟨rfl, hse, ?_⟩
  exact tiles_trailing _ _ _ _ htl hfd

theorem C2_witness :
    orderedB [⟨"a", 0, 1⟩, ⟨"b", 2, 3⟩] = true
      ∧ tilesB 0 3 (segmentAll [⟨"a", 0, 1⟩, ⟨"b", 2, 3⟩] [] {} 3 none) = true :=
  ⟨by decide,
    C2_tiles ⟨"a", 0, 1⟩ [⟨"b", 2, 3⟩] [] {} 3 none (by decide) (by decide) (by decide)⟩

theorem C2_counterexample :
    (∀ u ∈ [(⟨"a", 1, 2⟩ : WordEntry)], 0 ≤ u.start ∧ u.start ≤ u.«end» ∧ u.«end» ≤ 2)
      ∧ tilesB 0 2 (segmentAll [⟨"a", 1, 2⟩] [] {} 2 none) = false
      ∧ (∀ u ∈ [(⟨"a", 2, 3⟩ : WordEntry), ⟨"b", 0, 1⟩],
          0 ≤ u.start ∧ u.start ≤ u.«end» ∧ u.«end» ≤ 3)
      ∧ tilesB 0 3 (segmentAll [⟨"a", 2, 3⟩, ⟨"b", 0, 1⟩] [] {} 3 none) = false
      ∧ orderedB [⟨"z", 0, 0⟩, ⟨"a", 1, 2⟩] = true
      ∧ (∀ u ∈ [(⟨"z", 0, 0⟩ : WordEntry), ⟨"a", 1, 2⟩],
          0 ≤ u.start ∧ u.start ≤ u.«end» ∧ u.«end» ≤ 2)
      ∧ tilesB 0 2 (segmentAll [⟨"z", 0, 0⟩, ⟨"a", 1, 2⟩] [] {} 2 none) = false :=
  ⟨by decide, by decide, by decide, by decide, by decide, by decide, by decide⟩

end CaptionVideo
